import Mathlib

/-!
# Verification of the kwant tutorial notebooks

A shallow embedding of the Python code of the two tutorial notebooks
(`2.1.Discretizing-Hamiltonians-computing-spectra.ipynb` and
`3.4.graphene_qshe.ipynb`) together with proofs about it.

All numeric quantities the notebooks manipulate are modelled inside
computable subfields of the complex numbers: positions and real
parameters live in the rationals, the complex hopping amplitudes in
the Gaussian rationals, and the graphene lattice geometry in the
quadratic extension of the rationals by the square root of three.
Every floating point value the Python code can actually produce is a
rational number, so these carriers cover all concrete runs.
-/

/-- The quadratic extension of the rationals by a square root of the
rational `d`: the element `Qd.mk x y` represents `x + y * sqrt d`.
Instantiated at `d = -1` it gives the Gaussian rationals (the complex
numbers the notebooks compute with), at `d = 3` the field generated by
the irrational entry of the graphene lattice vectors. -/
structure Qd (d : ℚ) where
  x : ℚ
  y : ℚ
deriving DecidableEq, Repr

namespace Qd

variable {d : ℚ}

@[ext] theorem ext2 : ∀ {a b : Qd d}, a.x = b.x → a.y = b.y → a = b
  | ⟨_, _⟩, ⟨_, _⟩, rfl, rfl => rfl

instance : Zero (Qd d) := ⟨⟨0, 0⟩⟩

instance : One (Qd d) := ⟨⟨1, 0⟩⟩

instance : Add (Qd d) := ⟨fun a b => ⟨a.x + b.x, a.y + b.y⟩⟩

instance : Neg (Qd d) := ⟨fun a => ⟨-a.x, -a.y⟩⟩

instance : Sub (Qd d) := ⟨fun a b => a + -b⟩

instance : Mul (Qd d) := ⟨fun a b => ⟨a.x * b.x + d * a.y * b.y, a.x * b.y + a.y * b.x⟩⟩

@[simp] theorem zero_x : (0 : Qd d).x = 0 := rfl

@[simp] theorem zero_y : (0 : Qd d).y = 0 := rfl

@[simp] theorem one_x : (1 : Qd d).x = 1 := rfl

@[simp] theorem one_y : (1 : Qd d).y = 0 := rfl

@[simp] theorem add_x (a b : Qd d) : (a + b).x = a.x + b.x := rfl

@[simp] theorem add_y (a b : Qd d) : (a + b).y = a.y + b.y := rfl

@[simp] theorem neg_x (a : Qd d) : (-a).x = -a.x := rfl

@[simp] theorem neg_y (a : Qd d) : (-a).y = -a.y := rfl

@[simp] theorem sub_x (a b : Qd d) : (a - b).x = a.x - b.x := by
  show a.x + -b.x = _; ring

@[simp] theorem sub_y (a b : Qd d) : (a - b).y = a.y - b.y := by
  show a.y + -b.y = _; ring

@[simp] theorem mul_x (a b : Qd d) : (a * b).x = a.x * b.x + d * a.y * b.y := rfl

@[simp] theorem mul_y (a b : Qd d) : (a * b).y = a.x * b.y + a.y * b.x := rfl

instance : CommRing (Qd d) where
  add_assoc a b c := ext2 (by simp; ring) (by simp; ring)
  zero_add a := ext2 (by simp) (by simp)
  add_zero a := ext2 (by simp) (by simp)
  add_comm a b := ext2 (by simp; ring) (by simp; ring)
  left_distrib a b c := ext2 (by simp; ring) (by simp; ring)
  right_distrib a b c := ext2 (by simp; ring) (by simp; ring)
  zero_mul a := ext2 (by simp) (by simp)
  mul_zero a := ext2 (by simp) (by simp)
  mul_assoc a b c := ext2 (by simp; ring) (by simp; ring)
  one_mul a := ext2 (by simp) (by simp)
  mul_one a := ext2 (by simp) (by simp)
  neg_add_cancel a := ext2 (by simp) (by simp)
  mul_comm a b := ext2 (by simp; ring) (by simp; ring)
  sub_eq_add_neg a b := rfl
  nsmul := nsmulRec
  zsmul := zsmulRec

instance : Star (Qd d) := ⟨fun a => ⟨a.x, -a.y⟩⟩

@[simp] theorem star_x (a : Qd d) : (star a).x = a.x := rfl

@[simp] theorem star_y (a : Qd d) : (star a).y = -a.y := rfl

instance : StarRing (Qd d) where
  star_involutive a := ext2 (by simp) (by simp)
  star_mul a b := ext2 (by simp; ring) (by simp; ring)
  star_add a b := ext2 (by simp) (by simp; ring)

/-- The canonical embedding of the rationals (real literal values of
the notebooks). -/
def ofQ (q : ℚ) : Qd d := ⟨q, 0⟩

@[simp] theorem ofQ_x (q : ℚ) : (ofQ q : Qd d).x = q := rfl

@[simp] theorem ofQ_y (q : ℚ) : (ofQ q : Qd d).y = 0 := rfl

@[simp] theorem star_ofQ (q : ℚ) : star (ofQ q : Qd d) = ofQ q :=
  ext2 (by simp) (by simp)

/-- Multiplicative inverse, defined by the rationalized-denominator
formula; it returns `0` on non-invertible elements (as division by
zero does on the rationals). -/
def inv (a : Qd d) : Qd d :=
  ⟨a.x / (a.x ^ 2 - d * a.y ^ 2), -a.y / (a.x ^ 2 - d * a.y ^ 2)⟩

@[simp] theorem inv_x (a : Qd d) : a.inv.x = a.x / (a.x ^ 2 - d * a.y ^ 2) := rfl

@[simp] theorem inv_y (a : Qd d) : a.inv.y = -a.y / (a.x ^ 2 - d * a.y ^ 2) := rfl

end Qd

/-- The Gaussian rationals: the computable complex numbers in which all
hopping amplitudes of the notebooks live. -/
abbrev CQ : Type := Qd (-1)

/-- The imaginary unit, Python's `1j`. -/
def cI : CQ := ⟨0, 1⟩

/-- The field generated by the square root of three appearing in the
graphene lattice vectors. -/
abbrev Q3 : Type := Qd 3

/-- The square root of three as an element of `Q3`. -/
def sqrt3 : Q3 := ⟨0, 1⟩

theorem sqrt3_sq : sqrt3 * sqrt3 = Qd.ofQ 3 := by ext <;> simp [sqrt3]

/-! ## Association-list lookup

The kwant builder stores onsite and hopping assignments keyed by sites
and site pairs; we model that storage as association lists with a
first-match lookup. -/

/-- First-match lookup in an association list. -/
def alookup {α β : Type} [DecidableEq α] : List (α × β) → α → Option β
  | [], _ => none
  | (k, v) :: l, a => if a = k then some v else alookup l a

theorem alookup_map_const {α β : Type} [DecidableEq α] (l : List α) (c : β) (p : α) :
    alookup (l.map fun q => (q, c)) p = if p ∈ l then some c else none := by
  induction l with
  | nil => simp [alookup]
  | cons q l ih =>
      by_cases h : p = q
      · simp [alookup, h]
      · simp [alookup, h, ih]

namespace NB1

/-!
## Notebook 2.1: discretizing a continuum Hamiltonian on a circular dot

Source cells:

  t = 1
  r = 15

  def circle(pos):
      x, y = pos
      return x**2 + y**2 < r**2

  sys = kwant.Builder()
  sys[lat.shape(circle, (0,0))] = 4 * t
  sys[lat.neighbors()] = -t
  sys = sys.finalized()
  ham = sys.hamiltonian_submatrix()
  eval, evec = la.eigh(ham)

The square lattice has spacing 1, so its sites are the points of the
integer grid; the lattice shape fill keeps exactly the sites whose
position satisfies the shape function (the circular region is grid
connected, so the flood fill from (0,0) reaches all of them), and
`lat.neighbors()` yields the nearest-neighbor pairs, i.e. pairs of kept
sites at Euclidean distance 1.  Positions are modelled as rationals
(every Python float is a rational number).
-/

def t : ℚ := 1

def r : ℚ := 15

/-- The shape function of the notebook. -/
def circle (pos : ℚ × ℚ) : Bool := decide (pos.1 ^ 2 + pos.2 ^ 2 < r ^ 2)

/-- The shape function evaluated at a square-lattice site. -/
def circleZ (p : ℤ × ℤ) : Bool := circle ((p.1 : ℚ), (p.2 : ℚ))

/-- Integer coordinates from -15 to 15; the circular region lies inside
this box. -/
def intRange : List ℤ := (List.range 31).map (fun n => Int.ofNat n - 15)

/-- The search box for the lattice-shape fill. -/
def boxSites : List (ℤ × ℤ) := intRange ×ˢ intRange

/-- The sites added by `sys[lat.shape(circle, (0,0))]`. -/
def shapeSites : List (ℤ × ℤ) := boxSites.filter circleZ

/-- The onsite assignments `sys[lat.shape(circle, (0,0))] = 4 * t`. -/
def onsiteList : List ((ℤ × ℤ) × ℚ) := shapeSites.map (fun p => (p, 4 * t))

/-- Nearest-neighbor test on the square lattice: squared distance 1. -/
def isNN (p q : ℤ × ℤ) : Bool := decide ((p.1 - q.1) ^ 2 + (p.2 - q.2) ^ 2 = 1)

/-- A hopping of the built system: both endpoints kept by the shape and
at nearest-neighbor distance. -/
def hopPred (pq : (ℤ × ℤ) × (ℤ × ℤ)) : Bool :=
  circleZ pq.1 && circleZ pq.2 && isNN pq.1 pq.2

/-- The hopping assignments `sys[lat.neighbors()] = -t` (stored in both
directions; the value is real, so the Hermitian-conjugate reverse
hopping kwant adds carries the same value). -/
def hopList : List (((ℤ × ℤ) × (ℤ × ℤ)) × ℚ) :=
  ((boxSites ×ˢ boxSites).filter hopPred).map (fun pq => (pq, -t))

/-- Entry of `ham = sys.hamiltonian_submatrix()` at a pair of lattice
sites: the stored onsite value on the diagonal and the stored hopping
value off the diagonal, zero where nothing was assigned. -/
def ham (p q : ℤ × ℤ) : ℚ :=
  if p = q then (alookup onsiteList p).getD 0 else (alookup hopList (p, q)).getD 0

theorem mem_intRange {x : ℤ} : x ∈ intRange ↔ -15 ≤ x ∧ x ≤ 15 := by
  rw [intRange, List.mem_map]
  constructor
  · rintro ⟨n, hn, he⟩
    rw [List.mem_range] at hn
    rw [Int.ofNat_eq_natCast] at he
    omega
  · intro h
    refine ⟨(x + 15).toNat, ?_, ?_⟩
    · rw [List.mem_range]; omega
    · rw [Int.ofNat_eq_natCast]; omega

theorem circle_iff (x y : ℚ) : circle (x, y) = true ↔ x ^ 2 + y ^ 2 < 225 := by
  simp [circle, r]
  norm_num

theorem circleZ_iff (p : ℤ × ℤ) : circleZ p = true ↔ p.1 ^ 2 + p.2 ^ 2 < 225 := by
  rw [circleZ, circle_iff]
  constructor
  · intro h; exact_mod_cast h
  · intro h; exact_mod_cast h

theorem circleZ_mem_box {p : ℤ × ℤ} (h : circleZ p = true) : p ∈ boxSites := by
  rw [circleZ_iff] at h
  have h1 : p.1 ^ 2 < 225 := by nlinarith [sq_nonneg p.2]
  have h2 : p.2 ^ 2 < 225 := by nlinarith [sq_nonneg p.1]
  have hb1 : -15 ≤ p.1 ∧ p.1 ≤ 15 := by
    constructor <;> nlinarith [sq_nonneg (p.1 - 15), sq_nonneg (p.1 + 15)]
  have hb2 : -15 ≤ p.2 ∧ p.2 ≤ 15 := by
    constructor <;> nlinarith [sq_nonneg (p.2 - 15), sq_nonneg (p.2 + 15)]
  have : (p.1, p.2) ∈ boxSites := by
    rw [boxSites, List.mem_product, mem_intRange, mem_intRange]
    exact ⟨hb1, hb2⟩
  simpa using this

theorem mem_shapeSites {p : ℤ × ℤ} : p ∈ shapeSites ↔ circleZ p = true := by
  rw [shapeSites, List.mem_filter]
  exact ⟨fun h => h.2, fun h => ⟨circleZ_mem_box h, h⟩⟩

theorem alookup_onsite (p : ℤ × ℤ) :
    alookup onsiteList p = if circleZ p then some (4 * t) else none := by
  rw [onsiteList, alookup_map_const]
  by_cases h : circleZ p = true
  · simp [mem_shapeSites, h]
  · simp [mem_shapeSites, h]

theorem alookup_hop (p q : ℤ × ℤ) :
    alookup hopList (p, q) = if hopPred (p, q) then some (-t) else none := by
  rw [hopList, alookup_map_const]
  by_cases h : hopPred (p, q) = true
  · have hmem : (p, q) ∈ (boxSites ×ˢ boxSites).filter hopPred := by
      rw [List.mem_filter, List.mem_product]
      have h1 : circleZ p = true := by
        have := h; simp [hopPred] at this; exact this.1.1
      have h2 : circleZ q = true := by
        have := h; simp [hopPred] at this; exact this.1.2
      exact ⟨⟨circleZ_mem_box h1, circleZ_mem_box h2⟩, h⟩
    simp [hmem, h]
  · have hmem : (p, q) ∉ (boxSites ×ˢ boxSites).filter hopPred := by
      rw [List.mem_filter]
      intro hc
      exact h hc.2
    simp [hmem, h]

theorem ham_diag (p : ℤ × ℤ) :
    ham p p = if circleZ p then 4 * t else 0 := by
  rw [ham, if_pos rfl, alookup_onsite]
  by_cases h : circleZ p = true <;> simp [h]

theorem hopPred_pair (p q : ℤ × ℤ) :
    hopPred (p, q) = (circleZ p && circleZ q && isNN p q) := rfl

theorem ham_offdiag (p q : ℤ × ℤ) (hne : p ≠ q) :
    ham p q = if circleZ p && circleZ q && isNN p q then -t else 0 := by
  rw [ham, if_neg hne, alookup_hop, hopPred_pair]
  cases h : (circleZ p && circleZ q && isNN p q) <;> simp [h]

theorem isNN_symm (p q : ℤ × ℤ) : isNN p q = isNN q p := by
  have h : (p.1 - q.1) ^ 2 + (p.2 - q.2) ^ 2 = (q.1 - p.1) ^ 2 + (q.2 - p.2) ^ 2 := by
    ring
  rw [isNN, isNN, h]

theorem ham_symm (p q : ℤ × ℤ) : ham p q = ham q p := by
  by_cases h : p = q
  · rw [h]
  · have h2 : q ≠ p := fun hc => h hc.symm
    rw [ham_offdiag p q h, ham_offdiag q p h2, isNN_symm]
    by_cases h1 : circleZ p = true <;> by_cases hq : circleZ q = true <;>
      simp [h1, hq, Bool.and_comm]

end NB1

namespace NB2

/-!
## Notebook 3.4: graphene, Haldane and Kane-Mele models

Source cell defining the lattice and the momentum transformation:

  graphene = kwant.lattice.general([[1, 0], [1/2, np.sqrt(3)/2]],
                                   [[0, 0], [0, 1/np.sqrt(3)]])
  a, b = graphene.sublattices

  def momentum_to_lattice(k):
      B = np.array(graphene.prim_vecs).T
      A = B.dot(np.linalg.inv(B.T.dot(B)))
      return np.linalg.solve(A, k)

All lattice arithmetic lives in the computable field generated by the
rationals and the square root of three.  `np.linalg.inv` and
`np.linalg.solve` on 2 x 2 systems are modelled by the adjugate
formula (the matrices involved are concrete and invertible, which the
theorems below establish).
-/

/-- First primitive lattice vector, `[1, 0]`. -/
def primVec1 : Fin 2 → Q3 := ![Qd.ofQ 1, Qd.ofQ 0]

/-- Second primitive lattice vector, `[1/2, sqrt(3)/2]`. -/
def primVec2 : Fin 2 → Q3 := ![Qd.ofQ (1/2), ⟨0, 1/2⟩]

/-- `np.array(graphene.prim_vecs)`: the matrix whose rows are the
primitive vectors. -/
def primRows : Matrix (Fin 2) (Fin 2) Q3 := Matrix.of ![primVec1, primVec2]

/-- `B = np.array(graphene.prim_vecs).T`. -/
def Bmat : Matrix (Fin 2) (Fin 2) Q3 := primRows.transpose

/-- Determinant of a 2 x 2 matrix. -/
def det2 (M : Matrix (Fin 2) (Fin 2) Q3) : Q3 := M 0 0 * M 1 1 - M 0 1 * M 1 0

/-- `np.linalg.inv` on a 2 x 2 matrix: the adjugate formula. -/
def inv2 (M : Matrix (Fin 2) (Fin 2) Q3) : Matrix (Fin 2) (Fin 2) Q3 :=
  Matrix.of ![![(det2 M).inv * M 1 1, (det2 M).inv * -M 0 1],
              ![(det2 M).inv * -M 1 0, (det2 M).inv * M 0 0]]

/-- `A = B.dot(np.linalg.inv(B.T.dot(B)))`. -/
def Amat : Matrix (Fin 2) (Fin 2) Q3 := Bmat * inv2 (Bmat.transpose * Bmat)

/-- `np.linalg.solve(M, k)`. -/
def solve2 (M : Matrix (Fin 2) (Fin 2) Q3) (k : Fin 2 → Q3) : Fin 2 → Q3 :=
  (inv2 M).mulVec k

/-- The notebook's `momentum_to_lattice`. -/
def momentum_to_lattice (k : Fin 2 → Q3) : Fin 2 → Q3 := solve2 Amat k

/-- Dot product of two momentum/lattice 2-vectors. -/
def dot2 (u v : Fin 2 → Q3) : Q3 := u 0 * v 0 + u 1 * v 1

theorem Bmat_entries :
    Bmat = Matrix.of ![![Qd.ofQ 1, Qd.ofQ (1/2)], ![Qd.ofQ 0, ⟨0, 1/2⟩]] := by
  ext i j <;> fin_cases i <;> fin_cases j <;>
    simp [Bmat, primRows, primVec1, primVec2, Matrix.transpose_apply]

theorem Bt_entries :
    Bmat.transpose = Matrix.of ![![Qd.ofQ 1, Qd.ofQ 0], ![Qd.ofQ (1/2), ⟨0, 1/2⟩]] := by
  rw [Bmat, Matrix.transpose_transpose]
  ext i j <;> fin_cases i <;> fin_cases j <;>
    simp [primRows, primVec1, primVec2]

theorem BtB_eq :
    Bmat.transpose * Bmat = Matrix.of ![![⟨1, 0⟩, ⟨1/2, 0⟩], ![⟨1/2, 0⟩, ⟨1, 0⟩]] := by
  rw [Bt_entries, Bmat_entries]
  ext i j <;> fin_cases i <;> fin_cases j <;>
    simp [Matrix.mul_apply, Fin.sum_univ_two, Qd.ofQ] <;>
    norm_num

theorem invBtB_eq :
    inv2 (Bmat.transpose * Bmat) =
      Matrix.of ![![⟨4/3, 0⟩, ⟨-2/3, 0⟩], ![⟨-2/3, 0⟩, ⟨4/3, 0⟩]] := by
  rw [BtB_eq]
  ext i j <;> fin_cases i <;> fin_cases j <;>
    simp [inv2, det2, Qd.inv] <;>
    norm_num

theorem Amat_eq :
    Amat = Matrix.of ![![⟨1, 0⟩, ⟨0, 0⟩], ![⟨0, -1/3⟩, ⟨0, 2/3⟩]] := by
  rw [Amat, invBtB_eq, Bmat_entries]
  ext i j <;> fin_cases i <;> fin_cases j <;>
    simp [Matrix.mul_apply, Fin.sum_univ_two, Qd.ofQ] <;>
    norm_num

theorem inv2_Amat : inv2 Amat = Bmat.transpose := by
  rw [Amat_eq, Bt_entries]
  ext i j <;> fin_cases i <;> fin_cases j <;>
    simp [inv2, det2, Qd.inv, Qd.ofQ] <;>
    norm_num

theorem det2_Amat_ne_zero : det2 Amat ≠ 0 := by
  rw [Amat_eq]
  intro h
  have hy := congrArg Qd.y h
  simp [det2] at hy

theorem Amat_mul_Bt : Amat * Bmat.transpose = 1 := by
  rw [Amat_eq, Bt_entries]
  ext i j <;> fin_cases i <;> fin_cases j <;>
    simp [Matrix.mul_apply, Fin.sum_univ_two, Matrix.one_apply, Qd.ofQ] <;>
    norm_num

theorem Bt_mul_Amat : Bmat.transpose * Amat = 1 := by
  rw [Amat_eq, Bt_entries]
  ext i j <;> fin_cases i <;> fin_cases j <;>
    simp [Matrix.mul_apply, Fin.sum_univ_two, Matrix.one_apply, Qd.ofQ] <;>
    norm_num

theorem momentum_to_lattice_eq_Bt (k : Fin 2 → Q3) :
    momentum_to_lattice k = Bmat.transpose.mulVec k := by
  rw [momentum_to_lattice, solve2, inv2_Amat]

theorem Amat_mulVec_mtl (k : Fin 2 → Q3) :
    Amat.mulVec (momentum_to_lattice k) = k := by
  rw [momentum_to_lattice_eq_Bt, Matrix.mulVec_mulVec, Amat_mul_Bt,
    Matrix.one_mulVec]

theorem mtl_dot_form (k : Fin 2 → Q3) :
    momentum_to_lattice k = ![dot2 k primVec1, dot2 k primVec2] := by
  rw [momentum_to_lattice_eq_Bt, Bt_entries]
  funext i
  fin_cases i <;>
    simp [Matrix.mulVec, Matrix.dotProduct, Fin.sum_univ_two, dot2,
      primVec1, primVec2] <;>
    ring

/-!
### The 2D dispersion plot loop

Source:

  def dispersion_2D(syst, args=None, lim=1.5*np.pi, num_points=200):
      if args is None:
          args = []
      momenta = np.linspace(-lim, lim, num_points)
      energies = []
      for kx in momenta:
          for ky in momenta:
              lattice_k = momentum_to_lattice([kx, ky])
              h = syst.hamiltonian_submatrix(args=(list(args) + list(lattice_k)))
              energies.append(np.linalg.eigvalsh(h))
      ...(reshape and plot)...

The external-library composite `hamiltonian_submatrix` followed by
`eigvalsh` is an oracle parameter `eig`; the momentum transformation is
a parameter `transform` so that its influence on the collected energies
can be stated.  The grid bound `lim` is kept as the rational parameter
it is in the source (its default value is the irrational `1.5*pi`, but
every concrete float the interpreter passes is rational).
-/

/-- `np.linspace(lo, hi, n)`: `n` evenly spaced points from `lo` to
`hi`, endpoints included. -/
def linspace (lo hi : ℚ) (n : ℕ) : List ℚ :=
  (List.range n).map (fun i => lo + (hi - lo) * (Nat.cast i) / (Nat.cast (n - 1)))

/-- The traversal order of the double loop over `kx` and `ky`. -/
def gridPts (lim : ℚ) (n : ℕ) : List (ℚ × ℚ) :=
  (linspace (-lim) lim n) ×ˢ (linspace (-lim) lim n)

/-- A rational momentum pair as a `Q3` 2-vector. -/
def qvec (p : ℚ × ℚ) : Fin 2 → Q3 := ![Qd.ofQ p.1, Qd.ofQ p.2]

/-- The list of eigenvalue lists collected by `dispersion_2D`, with the
external eigensolver pipeline `eig` and the momentum-coordinate
transformation `transform` as parameters. -/
def dispersionEnergies (eig : (Fin 2 → Q3) → List Q3)
    (transform : (Fin 2 → Q3) → (Fin 2 → Q3)) (lim : ℚ) (n : ℕ) :
    List (List Q3) :=
  (gridPts lim n).map (fun p => eig (transform (qvec p)))

/-- Left-to-right effectful map: the loop body applied in traversal
order, stopping at the first raised error, as a Python for-loop does. -/
def mapE {α β ε : Type} (f : α → Except ε β) : List α → Except ε (List β)
  | [] => Except.ok []
  | a :: l =>
    match f a with
    | Except.error e => Except.error e
    | Except.ok b =>
      match mapE f l with
      | Except.error e => Except.error e
      | Except.ok bs => Except.ok (b :: bs)

/-- `dispersion_2D` with a fallible external library: each grid point is
passed (after the momentum transformation) to the oracle, which either
returns the eigenvalues or raises. -/
def dispersionExcept {ε : Type} (oracle : (Fin 2 → Q3) → Except ε (List Q3))
    (lim : ℚ) (n : ℕ) : Except ε (List (List Q3)) :=
  mapE (fun p => oracle (momentum_to_lattice (qvec p))) (gridPts lim n)

theorem mapE_ok {α β ε : Type} (f : α → β) (l : List α) :
    mapE (ε := ε) (fun a => Except.ok (f a)) l = Except.ok (l.map f) := by
  induction l with
  | nil => rfl
  | cons a l ih => simp [mapE, ih]

theorem mapE_error {α β ε : Type} (f : α → Except ε β) (l1 : List α) (a : α)
    (l2 : List α) (e : ε) (hok : ∀ b ∈ l1, ∃ v, f b = Except.ok v)
    (herr : f a = Except.error e) :
    mapE f (l1 ++ a :: l2) = Except.error e := by
  induction l1 with
  | nil => simp [mapE, herr]
  | cons b l1 ih =>
      obtain ⟨v, hv⟩ := hok b (List.mem_cons_self b l1)
      have htail := ih (fun c hc => hok c (List.mem_cons_of_mem b hc))
      simp [mapE, hv, htail]

/-!
### Haldane and Kane-Mele models

Source cells:

  nnn_hoppings_a = (((-1, 0), a, a), ((0, 1), a, a), ((1, -1), a, a))
  nnn_hoppings_b = (((1, 0), b, b), ((0, -1), b, b), ((-1, 1), b, b))
  nnn_hoppings = nnn_hoppings_a + nnn_hoppings_b

  def nnn_hopping(site1, site2, params):
      return 1j * params.t_2

  def onsite(site, params):                     # Haldane
      return params.m * (1 if site.family == a else -1)

  s0 = np.identity(2)
  sx = np.array([[0, 1], [1, 0]])
  sy = np.array([[0, -1j], [1j, 0]])
  sz = np.diag([1, -1])

  def spin_orbit(site1, site2, params):
      return 1j * params.t_2 * sz

  def onsite(site, params):                     # Kane-Mele
      return s0 * params.m * (1 if site.family == a else -1)

A momentum-space (wraparound) Hamiltonian matrix is assembled from the
builder contents: a diagonal onsite block per sublattice, and for every
stored hopping with displacement `delta` and value `v` a contribution
`e(delta) * v` together with the Hermitian-conjugate contribution
`e(-delta) * star v` that kwant adds for the reverse hopping; here `e`
is the Bloch phase assignment, an arbitrary function subject only to
`e(-delta) = conj (e delta)` (satisfied by `exp(i k.delta)` for every
real momentum `k`) and to being scalar (commuting with all values).
-/

/-- The two graphene sublattices `a, b = graphene.sublattices`. -/
inductive Family : Type where
  | a : Family
  | b : Family
deriving DecidableEq, Repr

/-- A kwant site: its sublattice family and its real-space position. -/
structure Site : Type where
  family : Family
  pos : ℚ × ℚ
deriving DecidableEq, Repr

/-- A site used to evaluate value callables whose result is
site-independent. -/
def someSite : Site := ⟨Family.a, (0, 0)⟩

/-- `nnn_hoppings_a`: next-nearest-neighbor hopping kinds inside
sublattice `a`, as (displacement, source family, target family). -/
def nnn_hoppings_a : List ((ℤ × ℤ) × Family × Family) :=
  [((-1, 0), Family.a, Family.a), ((0, 1), Family.a, Family.a),
   ((1, -1), Family.a, Family.a)]

/-- `nnn_hoppings_b`. -/
def nnn_hoppings_b : List ((ℤ × ℤ) × Family × Family) :=
  [((1, 0), Family.b, Family.b), ((0, -1), Family.b, Family.b),
   ((-1, 1), Family.b, Family.b)]

/-- `nnn_hoppings = nnn_hoppings_a + nnn_hoppings_b`. -/
def nnn_hoppings : List ((ℤ × ℤ) × Family × Family) :=
  nnn_hoppings_a ++ nnn_hoppings_b

/-- The Haldane next-nearest-neighbor hopping callable
`1j * params.t_2`. -/
def nnn_hopping (site1 site2 : Site) (t_2 : ℚ) : CQ := cI * Qd.ofQ t_2

namespace Haldane

/-- The Haldane onsite callable
`params.m * (1 if site.family == a else -1)`. -/
def onsite (site : Site) (m : ℚ) : ℚ :=
  m * (if site.family = Family.a then 1 else -1)

end Haldane

/-- Scalar multiple of a 2 x 2 complex matrix (numpy scalar
broadcasting). -/
def msc (c : CQ) (M : Matrix (Fin 2) (Fin 2) CQ) : Matrix (Fin 2) (Fin 2) CQ :=
  Matrix.of fun i j => c * M i j

@[simp] theorem msc_apply (c : CQ) (M : Matrix (Fin 2) (Fin 2) CQ) (i j : Fin 2) :
    msc c M i j = c * M i j := rfl

/-- `s0 = np.identity(2)`. -/
def s0 : Matrix (Fin 2) (Fin 2) CQ := Matrix.of fun i j => if i = j then 1 else 0

/-- `sx = np.array([[0, 1], [1, 0]])`. -/
def sx : Matrix (Fin 2) (Fin 2) CQ := Matrix.of fun i j => if i = j then 0 else 1

/-- `sy = np.array([[0, -1j], [1j, 0]])`. -/
def sy : Matrix (Fin 2) (Fin 2) CQ :=
  Matrix.of fun i j => if i = j then 0 else if i = 0 then -cI else cI

/-- `sz = np.diag([1, -1])`. -/
def sz : Matrix (Fin 2) (Fin 2) CQ :=
  Matrix.of fun i j => if i = j then (if i = 0 then 1 else -1) else 0

/-- The Kane-Mele spin-orbit hopping callable `1j * params.t_2 * sz`. -/
def spin_orbit (site1 site2 : Site) (t_2 : ℚ) : Matrix (Fin 2) (Fin 2) CQ :=
  msc (cI * Qd.ofQ t_2) sz

namespace KaneMele

/-- The Kane-Mele onsite callable
`s0 * params.m * (1 if site.family == a else -1)`. -/
def onsite (site : Site) (m : ℚ) : Matrix (Fin 2) (Fin 2) CQ :=
  msc (Qd.ofQ (m * (if site.family = Family.a then 1 else -1))) s0

end KaneMele

/-- A stored builder hopping: source family, target family, lattice
displacement, and the stored value. -/
structure Hop (R : Type) : Type where
  src : Family
  dst : Family
  disp : ℤ × ℤ
  val : R

/-- Negation of a lattice displacement. -/
def dneg (p : ℤ × ℤ) : ℤ × ℤ := (-p.1, -p.2)

/-- Contribution of one stored hopping to the momentum-space matrix
entry `(i, j)`: the stored direction carries `e(disp) * val`, and the
kwant-generated reverse direction carries `e(-disp) * star val`. -/
def hopTerm {R : Type} [NonUnitalNonAssocSemiring R] [StarRing R]
    (e : ℤ × ℤ → R) (i j : Family) (hp : Hop R) : R :=
  (if hp.src = i ∧ hp.dst = j then e hp.disp * hp.val else 0) +
  (if hp.dst = i ∧ hp.src = j then e (dneg hp.disp) * star hp.val else 0)

/-- Entry `(i, j)` of the momentum-space Hamiltonian assembled from
onsite values and stored hoppings. -/
def blochEntry {R : Type} [NonUnitalNonAssocSemiring R] [StarRing R]
    (ons : Family → R) (hops : List (Hop R)) (e : ℤ × ℤ → R)
    (i j : Family) : R :=
  (if i = j then ons i else 0) + (hops.map (hopTerm e i j)).sum

theorem star_list_sum {R : Type} [AddMonoid R] [StarAddMonoid R] (l : List R) :
    star l.sum = (l.map star).sum := by
  induction l with
  | nil => simp
  | cons a l ih => simp [List.sum_cons, star_add, ih]

theorem blochEntry_conj {R : Type} [NonUnitalNonAssocSemiring R] [StarRing R]
    (ons : Family → R) (hops : List (Hop R)) (e : ℤ × ℤ → R)
    (hOns : ∀ f, star (ons f) = ons f)
    (hE : ∀ p, e (dneg p) = star (e p))
    (hC : ∀ p x, e p * x = x * e p)
    (i j : Family) :
    star (blochEntry ons hops e j i) = blochEntry ons hops e i j := by
  have hstar : ∀ p, star (e (dneg p)) = e p := by
    intro p; rw [hE, star_star]
  have hfun : ∀ hp : Hop R, star (hopTerm e j i hp) = hopTerm e i j hp := by
    intro hp
    rw [hopTerm, hopTerm, star_add]
    have c1 : star (if hp.src = j ∧ hp.dst = i then e hp.disp * hp.val else 0)
        = (if hp.dst = i ∧ hp.src = j then e (dneg hp.disp) * star hp.val else 0) := by
      by_cases hc : hp.src = j ∧ hp.dst = i
      · rw [if_pos hc, if_pos ⟨hc.2, hc.1⟩, star_mul, ← hE]
        exact (hC _ _).symm
      · rw [if_neg hc, if_neg (fun hc2 => hc ⟨hc2.2, hc2.1⟩), star_zero]
    have c2 : star (if hp.dst = j ∧ hp.src = i then e (dneg hp.disp) * star hp.val else 0)
        = (if hp.src = i ∧ hp.dst = j then e hp.disp * hp.val else 0) := by
      by_cases hc : hp.dst = j ∧ hp.src = i
      · rw [if_pos hc, if_pos ⟨hc.2, hc.1⟩, star_mul, star_star, hstar]
        exact (hC _ _).symm
      · rw [if_neg hc, if_neg (fun hc2 => hc ⟨hc2.2, hc2.1⟩), star_zero]
    rw [c1, c2, add_comm]
  rw [blochEntry, blochEntry, star_add, star_list_sum, List.map_map]
  congr 1
  · by_cases h : i = j
    · subst h; simp [hOns]
    · have h2 : ¬ j = i := fun hc => h hc.symm
      simp [h, h2]
  · have hmaps : List.map (star ∘ hopTerm e j i) hops = List.map (hopTerm e i j) hops := by
      induction hops with
      | nil => rfl
      | cons hd tl ih => simp [Function.comp, hfun hd, ih]
    rw [hmaps]

/-- The stored hoppings of the Haldane builder: nearest-neighbor
hoppings with value `1` (their displacements are computed by the
library's `graphene.neighbors(1)` and are kept abstract), and the six
next-nearest-neighbor hoppings with value `nnn_hopping` from the
notebook. -/
def haldaneHops (t_2 : ℚ) (nn : List (ℤ × ℤ)) : List (Hop CQ) :=
  (nnn_hoppings.map (fun h => ⟨h.2.1, h.2.2, h.1, nnn_hopping someSite someSite t_2⟩)) ++
  (nn.map (fun p => ⟨Family.a, Family.b, p, 1⟩))

/-- Haldane onsite values by sublattice (the callable ignores the site
position). -/
def haldaneOns (m : ℚ) (f : Family) : CQ := Qd.ofQ (Haldane.onsite ⟨f, (0, 0)⟩ m)

/-- Entry of the Haldane momentum-space Hamiltonian. -/
def haldaneBloch (m t_2 : ℚ) (nn : List (ℤ × ℤ)) (e : ℤ × ℤ → CQ)
    (i j : Family) : CQ :=
  blochEntry (haldaneOns m) (haldaneHops t_2 nn) e i j

/-- The stored hoppings of the Kane-Mele builder (`add_hoppings`):
nearest neighbors with value `s0`, next-nearest neighbors with value
`spin_orbit`. -/
def kmHops (t_2 : ℚ) (nn : List (ℤ × ℤ)) : List (Hop (Matrix (Fin 2) (Fin 2) CQ)) :=
  (nnn_hoppings.map (fun h => ⟨h.2.1, h.2.2, h.1, spin_orbit someSite someSite t_2⟩)) ++
  (nn.map (fun p => ⟨Family.a, Family.b, p, s0⟩))

/-- Kane-Mele onsite values by sublattice. -/
def kmOns (m : ℚ) (f : Family) : Matrix (Fin 2) (Fin 2) CQ :=
  KaneMele.onsite ⟨f, (0, 0)⟩ m

/-- A scalar Bloch phase as a 2 x 2 matrix acting on spin space. -/
def phM (e : ℤ × ℤ → CQ) (p : ℤ × ℤ) : Matrix (Fin 2) (Fin 2) CQ := msc (e p) s0

/-- Entry of the Kane-Mele momentum-space Hamiltonian: a 2 x 2 spin
block per sublattice pair. -/
def kmBloch (m t_2 : ℚ) (nn : List (ℤ × ℤ)) (e : ℤ × ℤ → CQ)
    (i j : Family) : Matrix (Fin 2) (Fin 2) CQ :=
  blochEntry (kmOns m) (kmHops t_2 nn) (phM e) i j

theorem star_msc_s0 (c : CQ) : star (msc c s0) = msc (star c) s0 := by
  ext i j <;> fin_cases i <;> fin_cases j <;>
    simp [Matrix.star_apply, msc, s0]

theorem star_msc_sz (c : CQ) : star (msc c sz) = msc (star c) sz := by
  ext i j <;> fin_cases i <;> fin_cases j <;>
    simp [Matrix.star_apply, msc, sz]

theorem msc_s0_mul (c : CQ) (M : Matrix (Fin 2) (Fin 2) CQ) :
    msc c s0 * M = msc c M := by
  ext i j <;> fin_cases i <;> fin_cases j <;>
    simp [Matrix.mul_apply, Fin.sum_univ_two, msc, s0]

theorem mul_msc_s0 (c : CQ) (M : Matrix (Fin 2) (Fin 2) CQ) :
    M * msc c s0 = msc c M := by
  ext i j <;> fin_cases i <;> fin_cases j <;>
    simp [Matrix.mul_apply, Fin.sum_univ_two, msc, s0] <;> ring

theorem phM_comm (e : ℤ × ℤ → CQ) (p : ℤ × ℤ) (M : Matrix (Fin 2) (Fin 2) CQ) :
    phM e p * M = M * phM e p := by
  rw [phM, msc_s0_mul, mul_msc_s0]

theorem phM_conj (e : ℤ × ℤ → CQ) (he : ∀ p, e (dneg p) = star (e p)) (p : ℤ × ℤ) :
    phM e (dneg p) = star (phM e p) := by
  rw [phM, phM, star_msc_s0, he]

theorem haldaneOns_selfadj (m : ℚ) (f : Family) :
    star (haldaneOns m f) = haldaneOns m f := by
  rw [haldaneOns, Qd.star_ofQ]

theorem kmOns_selfadj (m : ℚ) (f : Family) : star (kmOns m f) = kmOns m f := by
  rw [kmOns, KaneMele.onsite, star_msc_s0, Qd.star_ofQ]

/-- Hermiticity of the Haldane momentum-space Hamiltonian. -/
theorem haldaneBloch_hermitian (m t_2 : ℚ) (nn : List (ℤ × ℤ))
    (e : ℤ × ℤ → CQ) (he : ∀ p, e (dneg p) = star (e p)) (i j : Family) :
    star (haldaneBloch m t_2 nn e j i) = haldaneBloch m t_2 nn e i j :=
  blochEntry_conj _ _ _ (haldaneOns_selfadj m) he (fun _ _ => mul_comm _ _) i j

/-- Hermiticity of the Kane-Mele momentum-space Hamiltonian (entrywise
on sublattice blocks; `star` on a block is its conjugate transpose). -/
theorem kmBloch_hermitian (m t_2 : ℚ) (nn : List (ℤ × ℤ))
    (e : ℤ × ℤ → CQ) (he : ∀ p, e (dneg p) = star (e p)) (i j : Family) :
    star (kmBloch m t_2 nn e j i) = kmBloch m t_2 nn e i j :=
  blochEntry_conj _ _ _ (kmOns_selfadj m) (phM_conj e he) (phM_comm e) i j

theorem listSum_apply (l : List (Matrix (Fin 2) (Fin 2) CQ)) (i j : Fin 2) :
    l.sum i j = (l.map (fun M => M i j)).sum := by
  induction l with
  | nil => rfl
  | cons M l ih => simp [List.sum_cons, Matrix.add_apply, ih]

theorem hopTerm_phM_entry (e : ℤ × ℤ → CQ) (i j : Family) (f1 f2 : Family)
    (p : ℤ × ℤ) (V : Matrix (Fin 2) (Fin 2) CQ) (s s2 : Fin 2) :
    hopTerm (phM e) i j ⟨f1, f2, p, V⟩ s s2 =
      (if f1 = i ∧ f2 = j then e p * V s s2 else 0) +
      (if f2 = i ∧ f1 = j then e (dneg p) * star (V s2 s) else 0) := by
  rw [hopTerm]
  simp only [Matrix.add_apply]
  congr 1
  · by_cases hc : f1 = i ∧ f2 = j
    · rw [if_pos hc, if_pos hc, phM, msc_s0_mul]; rfl
    · rw [if_neg hc, if_neg hc]; rfl
  · by_cases hc : f2 = i ∧ f1 = j
    · rw [if_pos hc, if_pos hc, phM, msc_s0_mul]
      simp [msc, Matrix.star_apply]
    · rw [if_neg hc, if_neg hc]; rfl

theorem spin_orbit_diag (t_2 : ℚ) (s : Fin 2) :
    spin_orbit someSite someSite t_2 s s
      = nnn_hopping someSite someSite (if s = 0 then t_2 else -t_2) := by
  fin_cases s <;> ext <;> simp [spin_orbit, nnn_hopping, msc, sz, cI] <;> ring

theorem spin_orbit_offdiag (t_2 : ℚ) (s s2 : Fin 2) (hne : s ≠ s2) :
    spin_orbit someSite someSite t_2 s s2 = 0 := by
  fin_cases s <;> fin_cases s2 <;> simp_all [spin_orbit, msc, sz]

theorem s0_diag (s : Fin 2) : s0 s s = 1 := by
  fin_cases s <;> simp [s0]

theorem s0_offdiag (s s2 : Fin 2) (hne : s ≠ s2) : s0 s s2 = 0 := by
  fin_cases s <;> fin_cases s2 <;> simp_all [s0]

theorem kmOns_diag (m : ℚ) (f : Family) (s : Fin 2) :
    kmOns m f s s = haldaneOns m f := by
  fin_cases s <;>
    simp [kmOns, KaneMele.onsite, haldaneOns, Haldane.onsite, msc, s0]

theorem kmOns_offdiag (m : ℚ) (f : Family) (s s2 : Fin 2) (hne : s ≠ s2) :
    kmOns m f s s2 = 0 := by
  fin_cases s <;> fin_cases s2 <;>
    simp_all [kmOns, KaneMele.onsite, msc, s0]

theorem hop_entry_nnn (e : ℤ × ℤ → CQ) (i j f1 f2 : Family) (p : ℤ × ℤ)
    (t_2 : ℚ) (s : Fin 2) :
    hopTerm (phM e) i j ⟨f1, f2, p, spin_orbit someSite someSite t_2⟩ s s
      = hopTerm e i j ⟨f1, f2, p,
          nnn_hopping someSite someSite (if s = 0 then t_2 else -t_2)⟩ := by
  rw [hopTerm_phM_entry, spin_orbit_diag, hopTerm]

theorem hop_entry_nn (e : ℤ × ℤ → CQ) (i j : Family) (p : ℤ × ℤ) (s : Fin 2) :
    hopTerm (phM e) i j ⟨Family.a, Family.b, p, s0⟩ s s
      = hopTerm e i j ⟨Family.a, Family.b, p, 1⟩ := by
  rw [hopTerm_phM_entry, s0_diag, hopTerm]

/-- On the spin-diagonal, the Kane-Mele momentum-space Hamiltonian is
the Haldane one, with the sign of the next-nearest-neighbor coupling
flipped for the down spin. -/
theorem kmBloch_spin_diag (m t_2 : ℚ) (nn : List (ℤ × ℤ)) (e : ℤ × ℤ → CQ)
    (i j : Family) (s : Fin 2) :
    kmBloch m t_2 nn e i j s s
      = haldaneBloch m (if s = 0 then t_2 else -t_2) nn e i j := by
  rw [kmBloch, haldaneBloch, blochEntry, blochEntry, Matrix.add_apply]
  congr 1
  · rw [apply_ite (fun M : Matrix (Fin 2) (Fin 2) CQ => M s s)]
    rw [kmOns_diag]
    rfl
  · rw [listSum_apply, List.map_map, kmHops, haldaneHops]
    rw [List.map_append, List.map_append, List.sum_append, List.sum_append]
    congr 1
    · rw [List.map_map, List.map_map]
      have : ((fun M : Matrix (Fin 2) (Fin 2) CQ => M s s) ∘ hopTerm (phM e) i j) ∘
          (fun h : (ℤ × ℤ) × Family × Family =>
            (⟨h.2.1, h.2.2, h.1, spin_orbit someSite someSite t_2⟩ :
              Hop (Matrix (Fin 2) (Fin 2) CQ)))
          = (hopTerm e i j) ∘ (fun h : (ℤ × ℤ) × Family × Family =>
            (⟨h.2.1, h.2.2, h.1,
              nnn_hopping someSite someSite (if s = 0 then t_2 else -t_2)⟩ : Hop CQ)) := by
        funext h
        exact hop_entry_nnn e i j h.2.1 h.2.2 h.1 t_2 s
      rw [this]
    · rw [List.map_map, List.map_map]
      have : ((fun M : Matrix (Fin 2) (Fin 2) CQ => M s s) ∘ hopTerm (phM e) i j) ∘
          (fun p : ℤ × ℤ =>
            (⟨Family.a, Family.b, p, s0⟩ : Hop (Matrix (Fin 2) (Fin 2) CQ)))
          = (hopTerm e i j) ∘ (fun p : ℤ × ℤ => (⟨Family.a, Family.b, p, 1⟩ : Hop CQ)) := by
        funext p
        exact hop_entry_nn e i j p s
      rw [this]

theorem sum_map_zero {α : Type} (l : List α) :
    (l.map (fun _ => (0 : CQ))).sum = 0 := by
  induction l with
  | nil => rfl
  | cons a l ih => simp [ih]

/-- Off the spin diagonal every entry of the Kane-Mele momentum-space
Hamiltonian vanishes: the two spin sectors are decoupled. -/
theorem kmBloch_spin_offdiag (m t_2 : ℚ) (nn : List (ℤ × ℤ)) (e : ℤ × ℤ → CQ)
    (i j : Family) (s s2 : Fin 2) (hne : s ≠ s2) :
    kmBloch m t_2 nn e i j s s2 = 0 := by
  have hne2 : s2 ≠ s := fun hc => hne hc.symm
  rw [kmBloch, blochEntry, Matrix.add_apply]
  have h1 : (if i = j then kmOns m i else 0) s s2 = 0 := by
    rw [apply_ite (fun M : Matrix (Fin 2) (Fin 2) CQ => M s s2)]
    by_cases h : i = j <;> simp [h, kmOns_offdiag m _ s s2 hne]
  have h2 : ∀ hp ∈ kmHops t_2 nn, hopTerm (phM e) i j hp s s2 = 0 := by
    intro hp hmem
    rw [kmHops, List.mem_append] at hmem
    rcases hmem with hmem | hmem
    · rw [List.mem_map] at hmem
      obtain ⟨h, _, rfl⟩ := hmem
      rw [hopTerm_phM_entry, spin_orbit_offdiag t_2 s s2 hne,
        spin_orbit_offdiag t_2 s2 s hne2]
      simp
    · rw [List.mem_map] at hmem
      obtain ⟨p, _, rfl⟩ := hmem
      rw [hopTerm_phM_entry, s0_offdiag s s2 hne, s0_offdiag s2 s hne2]
      simp
  rw [h1, listSum_apply, List.map_map, zero_add]
  have : List.map ((fun M : Matrix (Fin 2) (Fin 2) CQ => M s s2) ∘ hopTerm (phM e) i j)
      (kmHops t_2 nn) = List.map (fun _ => (0 : CQ)) (kmHops t_2 nn) := by
    apply List.map_congr_left
    intro hp hmem
    exact h2 hp hmem
  rw [this, sum_map_zero]

/-- A matrix with vanishing off-diagonal entries commutes with `sz`. -/
theorem diag_comm_sz (M : Matrix (Fin 2) (Fin 2) CQ) (h01 : M 0 1 = 0)
    (h10 : M 1 0 = 0) : M * sz = sz * M := by
  ext i j <;> fin_cases i <;> fin_cases j <;>
    simp [Matrix.mul_apply, Fin.sum_univ_two, sz, h01, h10] <;> ring

/-!
### Finalized systems

Modelled from the spec: the kwant finalizer itself is part of the
external library, whose sources are not in this repository.  The spec
describes its contract: it "fixes site ordering and graph shape,
producing an immutable system from which a matrix can be extracted",
while onsite/hopping values may still vary through parameters passed at
matrix-extraction time (`hamiltonian_submatrix(args=...)`).
-/

/-- The interactive parameter record `SimpleNamespace(t_2=t_2, m=m)`. -/
structure Params : Type where
  t_2 : ℚ
  m : ℚ
deriving DecidableEq, Repr

/-- Modelled from the spec: a finalized system.  The site ordering and
the hopping graph are immutable data fixed at finalization time; only
the value map consults the parameters. -/
structure FinSys (P V : Type) : Type where
  sites : List Site
  graph : List (ℕ × ℕ)
  value : P → ℕ × ℕ → V

/-- Modelled from the spec: `hamiltonian_submatrix` on a finalized
system: entries exist only on the fixed graph, with values supplied by
the parameter-dependent value map. -/
def hamSub {P V : Type} [Zero V] (S : FinSys P V) (prm : P) (i j : ℕ) : V :=
  if (i, j) ∈ S.graph then S.value prm (i, j) else 0

/-- Modelled from the spec: the finalized bulk Haldane system (two
sites per unit cell, onsite values from the notebook's `onsite`
callable, hopping values from `nnn_hopping` and the unit
nearest-neighbor hopping). -/
def haldaneFin : FinSys Params CQ where
  sites := [⟨Family.a, (0, 0)⟩, ⟨Family.b, (0, 1)⟩]
  graph := [(0, 0), (0, 1), (1, 0), (1, 1)]
  value := fun prm e =>
    if e = (0, 0) then
      Qd.ofQ (Haldane.onsite ⟨Family.a, (0, 0)⟩ prm.m) +
        nnn_hopping someSite someSite prm.t_2
    else if e = (1, 1) then
      Qd.ofQ (Haldane.onsite ⟨Family.b, (0, 1)⟩ prm.m) +
        star (nnn_hopping someSite someSite prm.t_2)
    else 1

/-- A probe eigensolver oracle returning the second component of the
momentum it is handed (any external behavior is admissible for the
library, since the spec treats it as opaque). -/
def probeEig (v : Fin 2 → Q3) : List Q3 := [v 1]

theorem linspace_one : linspace (-1) 1 1 = [-1] := by
  have h : List.range 1 = [0] := rfl
  rw [linspace, h]
  simp

theorem gridPts_one : gridPts 1 1 = [(-1, -1)] := by
  rw [gridPts, linspace_one]
  rfl

theorem mtl_at_corner :
    momentum_to_lattice (qvec (-1, -1)) = ![⟨-1, 0⟩, ⟨-1/2, -1/2⟩] := by
  rw [mtl_dot_form]
  funext i
  fin_cases i <;>
    ext <;>
      simp [dot2, qvec, primVec1, primVec2, Qd.ofQ] <;> norm_num

end NB2

/-!
## Claim theorems
-/

/-- C1, counterexample.  The claim that no repository-original
computation (in particular `momentum_to_lattice`) influences the
numerical values is false: holding the external eigensolver pipeline
fixed and replacing the repository's momentum transformation by the
identity changes the collected energies at a concrete grid point and
parameter setting (`lim = 1`, `num_points = 1`). -/
theorem dispersion_transform_influences_output :
    NB2.dispersionEnergies NB2.probeEig NB2.momentum_to_lattice 1 1
      ≠ NB2.dispersionEnergies NB2.probeEig (fun v => v) 1 1 := by
  intro h
  rw [NB2.dispersionEnergies, NB2.dispersionEnergies, NB2.gridPts_one] at h
  simp only [List.map_cons, List.map_nil] at h
  rw [NB2.probeEig, NB2.probeEig, NB2.mtl_at_corner] at h
  simp [NB2.qvec, Qd.ofQ] at h

/-- C1, amended.  Each collected energy list is exactly the external
library's output at the transformed momentum of a grid point: the
collected energies are determined by the external eigensolver's
behavior on the transformed grid (two library behaviors agreeing there
give identical outputs), while the repository's own code determines at
which momenta the library is consulted. -/
theorem dispersion_determined_by_library :
    ∀ (eig eig2 : (Fin 2 → Q3) → List Q3) (lim : ℚ) (n : ℕ),
      (∀ p ∈ NB2.gridPts lim n,
        eig (NB2.momentum_to_lattice (NB2.qvec p))
          = eig2 (NB2.momentum_to_lattice (NB2.qvec p))) →
      NB2.dispersionEnergies eig NB2.momentum_to_lattice lim n
        = NB2.dispersionEnergies eig2 NB2.momentum_to_lattice lim n := by
  intro eig eig2 lim n h
  rw [NB2.dispersionEnergies, NB2.dispersionEnergies]
  exact List.map_congr_left h

/-- C1, witness for the amended theorem. -/
theorem dispersion_determined_witness :
    NB2.dispersionEnergies NB2.probeEig NB2.momentum_to_lattice 1 1
      = NB2.dispersionEnergies (fun v => [v 1]) NB2.momentum_to_lattice 1 1 :=
  dispersion_determined_by_library NB2.probeEig (fun v => [v 1]) 1 1
    (fun p _ => rfl)

/-- C2.  Every matrix handed to the dense Hermitian eigensolvers equals
its own conjugate transpose: the circular-dot matrix of the first
notebook is real symmetric, and the momentum-space Haldane and
Kane-Mele matrices are Hermitian for every real `m`, `t_2`, every
nearest-neighbor hopping set and every admissible Bloch phase
assignment, even though the stored next-nearest-neighbor values
`1j*t_2` and `1j*t_2*sz` are themselves anti-Hermitian. -/
theorem eigensolver_matrices_hermitian :
    (∀ p q : ℤ × ℤ, star (Qd.ofQ (NB1.ham p q) : CQ) = Qd.ofQ (NB1.ham q p)) ∧
    (∀ (m t_2 : ℚ) (nn : List (ℤ × ℤ)) (e : ℤ × ℤ → CQ),
      (∀ p, e (NB2.dneg p) = star (e p)) →
      ∀ i j, star (NB2.haldaneBloch m t_2 nn e j i)
        = NB2.haldaneBloch m t_2 nn e i j) ∧
    (∀ (m t_2 : ℚ) (nn : List (ℤ × ℤ)) (e : ℤ × ℤ → CQ),
      (∀ p, e (NB2.dneg p) = star (e p)) →
      ∀ i j, star (NB2.kmBloch m t_2 nn e j i) = NB2.kmBloch m t_2 nn e i j) ∧
    (∀ t_2 : ℚ,
      star (NB2.nnn_hopping NB2.someSite NB2.someSite t_2)
        = -(NB2.nnn_hopping NB2.someSite NB2.someSite t_2) ∧
      star (NB2.spin_orbit NB2.someSite NB2.someSite t_2)
        = -(NB2.spin_orbit NB2.someSite NB2.someSite t_2)) := by
  refine ⟨?_, ?_, ?_, ?_⟩
  · intro p q
    rw [Qd.star_ofQ, NB1.ham_symm p q]
  · exact fun m t_2 nn e he i j => NB2.haldaneBloch_hermitian m t_2 nn e he i j
  · exact fun m t_2 nn e he i j => NB2.kmBloch_hermitian m t_2 nn e he i j
  · intro t_2
    constructor
    · ext <;> simp [NB2.nnn_hopping, cI] <;> ring
    · rw [NB2.spin_orbit, NB2.star_msc_sz]
      ext i j <;> fin_cases i <;> fin_cases j <;>
        simp [NB2.msc, NB2.sz, Matrix.neg_apply, cI] <;> ring

/-- C2, witness: the Hermiticity conclusions at a concrete parameter
setting and phase assignment. -/
theorem eigensolver_matrices_hermitian_witness :
    star (NB2.haldaneBloch 1 1 [(0, 1)] (fun _ => 1) NB2.Family.a NB2.Family.a)
        = NB2.haldaneBloch 1 1 [(0, 1)] (fun _ => 1) NB2.Family.a NB2.Family.a ∧
    star (NB2.kmBloch 1 1 [(0, 1)] (fun _ => 1) NB2.Family.a NB2.Family.a)
        = NB2.kmBloch 1 1 [(0, 1)] (fun _ => 1) NB2.Family.a NB2.Family.a :=
  ⟨eigensolver_matrices_hermitian.2.1 1 1 [(0, 1)] (fun _ => 1)
      (fun p => (star_one CQ).symm) NB2.Family.a NB2.Family.a,
   eigensolver_matrices_hermitian.2.2.1 1 1 [(0, 1)] (fun _ => 1)
      (fun p => (star_one CQ).symm) NB2.Family.a NB2.Family.a⟩

/-- C3.  `momentum_to_lattice` is well defined (the solved matrix `A`
is invertible and the returned vector solves the linear system) and
equals the transpose of the primitive-vector matrix applied to the
momentum, i.e. the vector of dot products of the momentum with the two
primitive lattice vectors; moreover `A` is the inverse transpose of
`B`. -/
theorem momentum_to_lattice_spec :
    ∀ k : Fin 2 → Q3,
      NB2.det2 NB2.Amat ≠ 0 ∧
      NB2.Amat.mulVec (NB2.momentum_to_lattice k) = k ∧
      NB2.momentum_to_lattice k = NB2.Bmat.transpose.mulVec k ∧
      NB2.Amat * NB2.Bmat.transpose = 1 ∧
      NB2.Bmat.transpose * NB2.Amat = 1 ∧
      NB2.momentum_to_lattice k = ![NB2.dot2 k NB2.primVec1, NB2.dot2 k NB2.primVec2] :=
  fun k => ⟨NB2.det2_Amat_ne_zero, NB2.Amat_mulVec_mtl k,
    NB2.momentum_to_lattice_eq_Bt k, NB2.Amat_mul_Bt, NB2.Bt_mul_Amat,
    NB2.mtl_dot_form k⟩

/-- C3, witness: the linear system is solved exactly at a concrete
momentum. -/
theorem momentum_to_lattice_spec_witness :
    NB2.Amat.mulVec (NB2.momentum_to_lattice (NB2.qvec (1, 0))) = NB2.qvec (1, 0) :=
  (momentum_to_lattice_spec (NB2.qvec (1, 0))).2.1

/-- C4.  The per-site energy callables depend only on the site family
and the mass parameter: the Haldane onsite value is `m` on sublattice
`a` and `-m` otherwise, the Kane-Mele onsite value is `m` times the
2 x 2 identity on sublattice `a` and `-m` times the identity otherwise,
and two sites of equal family receive equal values regardless of their
positions. -/
theorem onsite_family_only :
    ∀ (s s2 : NB2.Site) (m : ℚ),
      (NB2.Haldane.onsite s m = if s.family = NB2.Family.a then m else -m) ∧
      (NB2.KaneMele.onsite s m =
        if s.family = NB2.Family.a then NB2.msc (Qd.ofQ m) NB2.s0
        else NB2.msc (Qd.ofQ (-m)) NB2.s0) ∧
      (s.family = s2.family →
        NB2.Haldane.onsite s m = NB2.Haldane.onsite s2 m ∧
        NB2.KaneMele.onsite s m = NB2.KaneMele.onsite s2 m) := by
  intro s s2 m
  refine ⟨?_, ?_, ?_⟩
  · by_cases h : s.family = NB2.Family.a <;> simp [NB2.Haldane.onsite, h]
  · by_cases h : s.family = NB2.Family.a <;> simp [NB2.KaneMele.onsite, h]
  · intro hf
    constructor
    · rw [NB2.Haldane.onsite, NB2.Haldane.onsite, hf]
    · rw [NB2.KaneMele.onsite, NB2.KaneMele.onsite, hf]

/-- C4, witness: two sites of family `a` at different positions receive
the same onsite values. -/
theorem onsite_family_only_witness :
    NB2.Haldane.onsite ⟨NB2.Family.a, (3, 4)⟩ 2
        = NB2.Haldane.onsite ⟨NB2.Family.a, (7, 9)⟩ 2 ∧
    NB2.KaneMele.onsite ⟨NB2.Family.a, (3, 4)⟩ 2
        = NB2.KaneMele.onsite ⟨NB2.Family.a, (7, 9)⟩ 2 :=
  (onsite_family_only ⟨NB2.Family.a, (3, 4)⟩ ⟨NB2.Family.a, (7, 9)⟩ 2).2.2 rfl

/-- C5.  The finite-difference discretization on the circular dot
assigns onsite energy `4*t` to every site inside the circle, hopping
energy `-t` to every nearest-neighbor pair of sites inside the circle,
and no other matrix elements: entries vanish for any site outside the
circle and for any distinct non-neighboring pair. -/
theorem discretization_matrix_elements :
    ∀ p q : ℤ × ℤ,
      (NB1.circleZ p = true → NB1.ham p p = 4 * NB1.t) ∧
      (NB1.circleZ p = true → NB1.circleZ q = true → NB1.isNN p q = true →
        NB1.ham p q = -NB1.t) ∧
      (NB1.circleZ p = false → NB1.ham p q = 0 ∧ NB1.ham q p = 0) ∧
      (p ≠ q → NB1.isNN p q = false → NB1.ham p q = 0) := by
  intro p q
  refine ⟨?_, ?_, ?_, ?_⟩
  · intro hp
    rw [NB1.ham_diag, if_pos hp]
  · intro hp hq hnn
    have hne : p ≠ q := by
      intro hc
      subst hc
      rw [NB1.isNN] at hnn
      simp at hnn
    rw [NB1.ham_offdiag p q hne, hp, hq, hnn]
    simp
  · intro hp
    constructor
    · by_cases hne : p = q
      · subst hne
        rw [NB1.ham_diag, hp]
        simp
      · rw [NB1.ham_offdiag p q hne, hp]
        simp
    · by_cases hne : q = p
      · subst hne
        rw [NB1.ham_diag, hp]
        simp
      · rw [NB1.ham_offdiag q p hne, hp]
        simp
  · intro hne hnn
    rw [NB1.ham_offdiag p q hne, hnn]
    simp

/-- C5, witness: concrete entries of the built matrix. -/
theorem discretization_matrix_elements_witness :
    NB1.ham (0, 0) (0, 0) = 4 * NB1.t ∧ NB1.ham (0, 0) (0, 1) = -NB1.t :=
  ⟨(discretization_matrix_elements (0, 0) (0, 1)).1
      (by norm_num [NB1.circleZ, NB1.circle, NB1.r]),
   (discretization_matrix_elements (0, 0) (0, 1)).2.1
      (by norm_num [NB1.circleZ, NB1.circle, NB1.r])
      (by norm_num [NB1.circleZ, NB1.circle, NB1.r])
      (by norm_num [NB1.isNN])⟩

/-- C6.  The shape predicate holds exactly on the open disk of radius
15: points with `x^2 + y^2 = 225` are excluded, and the predicate is
invariant under negating either coordinate and under swapping the
coordinates. -/
theorem circle_predicate_spec :
    ∀ x y : ℚ,
      (NB1.circle (x, y) = true ↔ x ^ 2 + y ^ 2 < 225) ∧
      (x ^ 2 + y ^ 2 = 225 → NB1.circle (x, y) = false) ∧
      NB1.circle (-x, y) = NB1.circle (x, y) ∧
      NB1.circle (x, -y) = NB1.circle (x, y) ∧
      NB1.circle (y, x) = NB1.circle (x, y) := by
  intro x y
  refine ⟨NB1.circle_iff x y, ?_, ?_, ?_, ?_⟩
  · intro hb
    by_cases hc : NB1.circle (x, y) = true
    · exact absurd ((NB1.circle_iff x y).1 hc) (by rw [hb]; exact lt_irrefl 225)
    · simpa using hc
  · show decide ((-x) ^ 2 + y ^ 2 < NB1.r ^ 2) = decide (x ^ 2 + y ^ 2 < NB1.r ^ 2)
    simp only [decide_eq_decide]
    have hsq : (-x : ℚ) ^ 2 = x ^ 2 := by ring
    rw [hsq]
  · show decide (x ^ 2 + (-y) ^ 2 < NB1.r ^ 2) = decide (x ^ 2 + y ^ 2 < NB1.r ^ 2)
    simp only [decide_eq_decide]
    have hsq : (-y : ℚ) ^ 2 = y ^ 2 := by ring
    rw [hsq]
  · show decide (y ^ 2 + x ^ 2 < NB1.r ^ 2) = decide (x ^ 2 + y ^ 2 < NB1.r ^ 2)
    simp only [decide_eq_decide]
    rw [add_comm (y ^ 2) (x ^ 2)]

/-- C6, witness: the boundary point (9, 12) with 81 + 144 = 225 is
excluded. -/
theorem circle_predicate_spec_witness : NB1.circle (9, 12) = false :=
  (circle_predicate_spec 9 12).2.1 (by norm_num)

/-- C7.  Every onsite and hopping matrix of the Kane-Mele system
commutes with `sz`; consequently each block of the momentum-space
Hamiltonian commutes with `sz`, the spin-off-diagonal parts vanish, and
the two spin sectors are two decoupled Haldane models with
next-nearest-neighbor couplings `t_2` and `-t_2`. -/
theorem kane_mele_sz_conservation :
    (∀ (s : NB2.Site) (m : ℚ),
      NB2.KaneMele.onsite s m * NB2.sz = NB2.sz * NB2.KaneMele.onsite s m) ∧
    NB2.s0 * NB2.sz = NB2.sz * NB2.s0 ∧
    (∀ (s1 s2 : NB2.Site) (t_2 : ℚ),
      NB2.spin_orbit s1 s2 t_2 * NB2.sz = NB2.sz * NB2.spin_orbit s1 s2 t_2) ∧
    (∀ (m t_2 : ℚ) (nn : List (ℤ × ℤ)) (e : ℤ × ℤ → CQ) (i j : NB2.Family),
      NB2.kmBloch m t_2 nn e i j * NB2.sz = NB2.sz * NB2.kmBloch m t_2 nn e i j) ∧
    (∀ (m t_2 : ℚ) (nn : List (ℤ × ℤ)) (e : ℤ × ℤ → CQ) (i j : NB2.Family)
      (s : Fin 2),
      NB2.kmBloch m t_2 nn e i j s s
        = NB2.haldaneBloch m (if s = 0 then t_2 else -t_2) nn e i j) ∧
    (∀ (m t_2 : ℚ) (nn : List (ℤ × ℤ)) (e : ℤ × ℤ → CQ) (i j : NB2.Family),
      NB2.kmBloch m t_2 nn e i j 0 1 = 0 ∧ NB2.kmBloch m t_2 nn e i j 1 0 = 0) := by
  refine ⟨?_, ?_, ?_, ?_, ?_, ?_⟩
  · intro s m
    rw [NB2.KaneMele.onsite, NB2.msc_s0_mul, NB2.mul_msc_s0]
  · exact NB2.diag_comm_sz NB2.s0 (by simp [NB2.s0]) (by simp [NB2.s0])
  · intro s1 s2 t_2
    exact NB2.diag_comm_sz _ (by simp [NB2.spin_orbit, NB2.msc, NB2.sz])
      (by simp [NB2.spin_orbit, NB2.msc, NB2.sz])
  · intro m t_2 nn e i j
    exact NB2.diag_comm_sz _
      (NB2.kmBloch_spin_offdiag m t_2 nn e i j 0 1 (by decide))
      (NB2.kmBloch_spin_offdiag m t_2 nn e i j 1 0 (by decide))
  · exact fun m t_2 nn e i j s => NB2.kmBloch_spin_diag m t_2 nn e i j s
  · exact fun m t_2 nn e i j =>
      ⟨NB2.kmBloch_spin_offdiag m t_2 nn e i j 0 1 (by decide),
       NB2.kmBloch_spin_offdiag m t_2 nn e i j 1 0 (by decide)⟩

/-- C8.  No notebook function handles errors: with an error-free
library the loop returns exactly the pure energies (no failure is
encoded in return values), and the first error raised by a library call
propagates unchanged out of `dispersion_2D`. -/
theorem error_propagation :
    ∀ (ε : Type) (eig : (Fin 2 → Q3) → List Q3)
      (oracle : (Fin 2 → Q3) → Except ε (List Q3)) (lim : ℚ) (n : ℕ)
      (l1 l2 : List (ℚ × ℚ)) (p : ℚ × ℚ) (err : ε),
      (NB2.dispersionExcept (fun v => (Except.ok (eig v) : Except ε (List Q3))) lim n
        = Except.ok (NB2.dispersionEnergies eig NB2.momentum_to_lattice lim n)) ∧
      (NB2.gridPts lim n = l1 ++ p :: l2 →
        (∀ q ∈ l1, ∃ v, oracle (NB2.momentum_to_lattice (NB2.qvec q)) = Except.ok v) →
        oracle (NB2.momentum_to_lattice (NB2.qvec p)) = Except.error err →
        NB2.dispersionExcept oracle lim n = Except.error err) := by
  intro ε eig oracle lim n l1 l2 p err
  constructor
  · rw [NB2.dispersionExcept, NB2.dispersionEnergies]
    exact NB2.mapE_ok (fun p2 => eig (NB2.momentum_to_lattice (NB2.qvec p2)))
      (NB2.gridPts lim n)
  · intro hgrid hok herr
    rw [NB2.dispersionExcept, hgrid]
    exact NB2.mapE_error _ l1 p l2 err hok herr

/-- C8, witness: an error raised at the first grid point propagates
unchanged. -/
theorem error_propagation_witness :
    NB2.dispersionExcept (fun _ => Except.error 7) 1 1 = Except.error 7 :=
  (error_propagation ℕ (fun _ => []) (fun _ => Except.error 7) 1 1 [] [] (-1, -1) 7).2
    NB2.gridPts_one (fun q hq => absurd hq (List.not_mem_nil q)) rfl

/-- C9.  Every function defined in the notebooks is deterministic:
equal arguments (and equal surrounding state, here explicit arguments)
yield equal results. -/
theorem notebook_functions_deterministic :
    (∀ k k2 : Fin 2 → Q3, k = k2 →
      NB2.momentum_to_lattice k = NB2.momentum_to_lattice k2) ∧
    (∀ p p2 : ℚ × ℚ, p = p2 → NB1.circle p = NB1.circle p2) ∧
    (∀ (eig : (Fin 2 → Q3) → List Q3) (tr : (Fin 2 → Q3) → (Fin 2 → Q3))
      (lim lim2 : ℚ) (n n2 : ℕ), lim = lim2 → n = n2 →
      NB2.dispersionEnergies eig tr lim n = NB2.dispersionEnergies eig tr lim2 n2) ∧
    (∀ (s s2 : NB2.Site) (m m2 : ℚ), s = s2 → m = m2 →
      NB2.Haldane.onsite s m = NB2.Haldane.onsite s2 m2 ∧
      NB2.KaneMele.onsite s m = NB2.KaneMele.onsite s2 m2) ∧
    (∀ (s1 s2 s3 s4 : NB2.Site) (u u2 : ℚ), s1 = s3 → s2 = s4 → u = u2 →
      NB2.nnn_hopping s1 s2 u = NB2.nnn_hopping s3 s4 u2 ∧
      NB2.spin_orbit s1 s2 u = NB2.spin_orbit s3 s4 u2) := by
  refine ⟨?_, ?_, ?_, ?_, ?_⟩
  · intro k k2 h
    rw [h]
  · intro p p2 h
    rw [h]
  · intro eig tr lim lim2 n n2 h1 h2
    rw [h1, h2]
  · intro s s2 m m2 h1 h2
    subst h1
    subst h2
    exact ⟨rfl, rfl⟩
  · intro s1 s2 s3 s4 u u2 h1 h2 h3
    subst h1
    subst h2
    subst h3
    exact ⟨rfl, rfl⟩

/-- C9, witness. -/
theorem notebook_functions_deterministic_witness :
    NB2.momentum_to_lattice (NB2.qvec (1, 2)) = NB2.momentum_to_lattice (NB2.qvec (1, 2)) :=
  notebook_functions_deterministic.1 (NB2.qvec (1, 2)) (NB2.qvec (1, 2)) rfl

/-- C10.  After finalization the site ordering and the hopping graph
are fixed data: the extracted matrix has entries only on the fixed
graph, identically for all parameter records, while the entry values
may still change with the parameters passed at extraction time (shown
on the finalized Haldane system at two parameter settings). -/
theorem finalized_frame :
    (∀ (S : NB2.FinSys NB2.Params CQ) (prm prm2 : NB2.Params) (i j : ℕ),
      ((i, j) ∉ S.graph → NB2.hamSub S prm i j = 0 ∧ NB2.hamSub S prm2 i j = 0) ∧
      (NB2.hamSub S prm i j ≠ 0 → (i, j) ∈ S.graph)) ∧
    NB2.hamSub NB2.haldaneFin ⟨0, 1/5⟩ 0 0 ≠ NB2.hamSub NB2.haldaneFin ⟨1/10, 1/5⟩ 0 0 := by
  constructor
  · intro S prm prm2 i j
    constructor
    · intro hmem
      rw [NB2.hamSub, NB2.hamSub, if_neg hmem, if_neg hmem]
      exact ⟨rfl, rfl⟩
    · intro hne
      by_cases hmem : (i, j) ∈ S.graph
      · exact hmem
      · exact absurd (by rw [NB2.hamSub, if_neg hmem]) hne
  · intro h
    have hy := congrArg Qd.y h
    simp [NB2.hamSub, NB2.haldaneFin, NB2.Haldane.onsite, NB2.nnn_hopping,
      cI, Qd.ofQ] at hy

/-- C10, witness: outside the fixed graph the extracted matrix
vanishes for every parameter record. -/
theorem finalized_frame_witness :
    NB2.hamSub NB2.haldaneFin ⟨0, 1/5⟩ 5 7 = 0 :=
  ((finalized_frame.1 NB2.haldaneFin ⟨0, 1/5⟩ ⟨0, 1/5⟩ 5 7).1 (by decide)).1
